import Mathlib

/-!
Shallow embedding of `src/firmware/generate.py` (pico-synth wavetable and
note-table generator) and verification of its specification claims.

Python floats are modelled as real numbers, `math.sin` as `Real.sin`,
`2 ** e` as `Real.rpow`, `int(x)` as truncation toward zero, and the
`ZeroDivisionError` raised by `fix_wavetable` on a constant array as an
`Option.none` result.  List-building loops that append a running value are
embedded as maps of the partial-sum function over `List.range`.
-/

namespace PicoSynth

open Real

/-- `waveform_amplitude = 0x7ff` from the source. -/
def waveform_amplitude : ℤ := 0x7ff

/-- `waveform_samples_per_cycle = 0x200` from the source. -/
def waveform_samples_per_cycle : ℕ := 0x200

/-- `a4_midi_number = 69` from the source. -/
def a4_midi_number : ℕ := 69

/-- `a4_frequency = 440.0` from the source. -/
noncomputable def a4_frequency : ℝ := 440.0

/-- `audio_sample_rate = 48000` from the source. -/
def audio_sample_rate : ℕ := 48000

/-- Element function of the list comprehension
`note_frequencies = [a4_frequency * 2 ** ((i - a4_midi_number) / 12) for i in range(128)]`. -/
noncomputable def note_frequency (i : ℕ) : ℝ :=
  a4_frequency * (2 : ℝ) ^ (((i : ℝ) - (a4_midi_number : ℝ)) / 12)

/-- The `note_frequencies` list of the source (128 entries). -/
noncomputable def note_frequencies : List ℝ :=
  (List.range 128).map note_frequency

/-- `wavetable_octaves = math.ceil(len(note_frequencies) / 12) - 1`; the length of
`note_frequencies` is the literal 128 (see `note_frequencies_length`). -/
def wavetable_octaves : ℕ := (⌈(128 : ℚ) / 12⌉ - 1).toNat

/-- Python `int(x)` conversion: truncation toward zero. -/
noncomputable def pyInt (x : ℝ) : ℤ := if x < 0 then ⌈x⌉ else ⌊x⌋

/-- Python `min(array)` on a list of floats (left fold of binary `min`
over a nonempty list; the empty case, which raises in Python, gets a junk value). -/
noncomputable def pymin : List ℝ → ℝ
  | [] => 0
  | x :: xs => xs.foldl min x

/-- Python `max(array)` on a list of floats. -/
noncomputable def pymax : List ℝ → ℝ
  | [] => 0
  | x :: xs => xs.foldl max x

/-- The per-element body of the loop in `fix_wavetable`:
`array[i] -= mn; array[i] *= (2 * waveform_amplitude) / abs(mx - mn);`
`array[i] = int(array[i]) - waveform_amplitude`. -/
noncomputable def fixScale (a : List ℝ) (v : ℝ) : ℤ :=
  pyInt ((v - pymin a) * (((2 * waveform_amplitude : ℤ) : ℝ) / |pymax a - pymin a|)) -
    waveform_amplitude

/-- The state of the caller's array after `fix_wavetable` has run: the loop
mutates every element in place, in the original index order. -/
noncomputable def fixMutated (a : List ℝ) : List ℤ := a.map (fixScale a)

/-- `fix_wavetable(array)`: quantize in place, then return `array[::-1]`.
Python raises `ZeroDivisionError` when `abs(mx - mn) == 0`; that (and the
`ValueError` of `min([])`, which also makes the guard hold) is the `none` case. -/
noncomputable def fix_wavetable (a : List ℝ) : Option (List ℤ) :=
  if |pymax a - pymin a| = 0 then none else some (fixMutated a).reverse

/-- `idx = i * 12 + 11` clamped to the last note:
`idx if idx < len(note_frequencies) else len(note_frequencies) - 1`. -/
def refIdx (oct : ℕ) : ℕ :=
  if oct * 12 + 11 < 128 then oct * 12 + 11 else 128 - 1

/-- `f = note_frequencies[idx ...]`, the octave's reference frequency. -/
noncomputable def refFreq (oct : ℕ) : ℝ := note_frequencies.getD (refIdx oct) 0

/-- `P = audio_sample_rate / f` (samples per period at the reference pitch). -/
noncomputable def P (oct : ℕ) : ℝ := (audio_sample_rate : ℝ) / refFreq oct

/-- `M = 2 * math.floor(P / 2) + 1`. -/
noncomputable def M (oct : ℕ) : ℤ := 2 * ⌊P oct / 2⌋ + 1

/-- `x = (i - waveform_samples_per_cycle / 2) / waveform_samples_per_cycle`. -/
noncomputable def xval (i : ℕ) : ℝ :=
  ((i : ℝ) - (waveform_samples_per_cycle : ℝ) / 2) / (waveform_samples_per_cycle : ℝ)

/-- The denominator `M * math.sin(math.pi * x)` of the BLIT kernel; the
`ZeroDivisionError` branch is taken exactly when it is zero. -/
noncomputable def blitDenom (oct i : ℕ) : ℝ := (M oct : ℝ) * Real.sin (π * xval i)

open Classical in
/-- One entry of the `blit` array:
`math.sin(math.pi * x * M) / (M * math.sin(math.pi * x))`, with `1.0`
substituted where the division raises `ZeroDivisionError`. -/
noncomputable def blit (oct i : ℕ) : ℝ :=
  if blitDenom oct i = 0 then 1.0
  else Real.sin (π * xval i * (M oct : ℝ)) / blitDenom oct i

open Classical in
/-- The `mid` variable: initialized to 0 and assigned the loop index at every
iteration whose division raises, i.e. the last index with zero denominator. -/
noncomputable def mid (oct : ℕ) : ℕ :=
  (List.range waveform_samples_per_cycle).foldl
    (fun acc i => if blitDenom oct i = 0 then i else acc) 0

/-- The phase-shift index `i + mid if i < mid else i - mid`. -/
def shiftIdx (m i : ℕ) : ℕ := if i < m then i + m else i - m

/-- Partial sums of a term function: the value of the accumulator `y` after the
iteration for index `i` of a loop doing `y += g(i)`, starting from `y = 0`. -/
noncomputable def runSum (g : ℕ → ℝ) : ℕ → ℝ
  | 0 => g 0
  | n + 1 => runSum g n + g (n + 1)

/-- Term added to `y` in the square loop: `blit[i] - blit[i + mid if i < mid else i - mid]`. -/
noncomputable def squareTerm (oct i : ℕ) : ℝ :=
  blit oct i - blit oct (shiftIdx (mid oct) i)

/-- `square[i]` before quantization (the value of `y` appended at index `i`). -/
noncomputable def squareF (oct i : ℕ) : ℝ := runSum (squareTerm oct) i

/-- The `square` list before quantization. -/
noncomputable def squareList (oct : ℕ) : List ℝ :=
  (List.range waveform_samples_per_cycle).map (squareF oct)

/-- `square_avg = min(square) + ((max(square) - min(square)) / 2)`, computed from
the pre-quantization real-valued square list. -/
noncomputable def square_avg (oct : ℕ) : ℝ :=
  pymin (squareList oct) + ((pymax (squareList oct) - pymin (squareList oct)) / 2)

/-- The caller's `square` list after `fix_wavetable(square)` mutated it in place:
quantized integers in the original index order. -/
noncomputable def squareQuant (oct : ℕ) : List ℤ := fixMutated (squareList oct)

/-- `wavetables['square'].append(fix_wavetable(square))`. -/
noncomputable def squareTable (oct : ℕ) : Option (List ℤ) := fix_wavetable (squareList oct)

/-- Term added to `y` in the triangle loop: `v - square_avg` where `v` runs over
the (mutated, i.e. quantized) `square` list. -/
noncomputable def triangleTerm (oct j : ℕ) : ℝ :=
  ((squareQuant oct).getD j 0 : ℝ) - square_avg oct

/-- `triangle[i]` before rotation and quantization. -/
noncomputable def triangleF (oct i : ℕ) : ℝ := runSum (triangleTerm oct) i

/-- The `triangle` list before rotation. -/
noncomputable def triangleList (oct : ℕ) : List ℝ :=
  (List.range waveform_samples_per_cycle).map (triangleF oct)

/-- `triangle_start = waveform_samples_per_cycle // 4`. -/
def triangle_start : ℕ := waveform_samples_per_cycle / 4

/-- `triangle = triangle[triangle_start:] + triangle[:triangle_start]`. -/
noncomputable def triangleRot (oct : ℕ) : List ℝ :=
  (triangleList oct).drop triangle_start ++ (triangleList oct).take triangle_start

/-- `wavetables['triangle'].append(fix_wavetable(triangle))`. -/
noncomputable def triangleTable (oct : ℕ) : Option (List ℤ) := fix_wavetable (triangleRot oct)

/-- Term added to `y` in the sawtooth loop:
`blit[i + mid if i < mid else i - mid] - 1. / P`. -/
noncomputable def sawtoothTerm (oct i : ℕ) : ℝ :=
  blit oct (shiftIdx (mid oct) i) - 1 / P oct

/-- `sawtooth[i]` before quantization: the loop appends `-y`. -/
noncomputable def sawtoothF (oct i : ℕ) : ℝ := -(runSum (sawtoothTerm oct) i)

/-- The `sawtooth` list before quantization. -/
noncomputable def sawtoothList (oct : ℕ) : List ℝ :=
  (List.range waveform_samples_per_cycle).map (sawtoothF oct)

/-- `wavetables['sawtooth'].append(fix_wavetable(sawtooth))`. -/
noncomputable def sawtoothTable (oct : ℕ) : Option (List ℤ) := fix_wavetable (sawtoothList oct)

/-- `wavetables['sine']`: the raw (unquantized) sine table
`waveform_amplitude * math.sin(2 * math.pi * i / waveform_samples_per_cycle)`. -/
noncomputable def sine : List ℝ :=
  (List.range waveform_samples_per_cycle).map
    (fun (i : ℕ) => (waveform_amplitude : ℝ) *
      Real.sin (2 * π * (i : ℝ) / (waveform_samples_per_cycle : ℝ)))

/-- The full square family: one table appended per iteration of
`for i in range(wavetable_octaves)`. -/
noncomputable def squareFamily : List (Option (List ℤ)) :=
  (List.range wavetable_octaves).map squareTable

/-- The full triangle family. -/
noncomputable def triangleFamily : List (Option (List ℤ)) :=
  (List.range wavetable_octaves).map triangleTable

/-- The full sawtooth family. -/
noncomputable def sawtoothFamily : List (Option (List ℤ)) :=
  (List.range wavetable_octaves).map sawtoothTable

/-- `step = waveform_samples_per_cycle / (audio_sample_rate / f)` in `dump_notes`. -/
noncomputable def step (i : ℕ) : ℝ :=
  (waveform_samples_per_cycle : ℝ) / ((audio_sample_rate : ℝ) / note_frequencies.getD i 0)

/-- The numeric value emitted for `.step.data`: `format_hex(step * (1 << 16), 8)`
prints `int(v)` (sign plus hexadecimal absolute value), so the emitted number
is `int(step * 65536)`. -/
noncomputable def step_data (i : ℕ) : ℤ := pyInt (step i * 65536)

/-- The synthetic linear ramp 0, 1, ..., 511: the normalizer test input named
by the specification's quantization round-trip property. -/
noncomputable def ramp : List ℝ := (List.range 512).map (fun (i : ℕ) => (i : ℝ))

/-! ### List access helpers -/

theorem getD_map_range {α : Type} (f : ℕ → α) {n i : ℕ} (h : i < n) (d : α) :
    ((List.range n).map f).getD i d = f i := by
  simp [List.getD_eq_getElem?_getD, List.getElem?_range h]

theorem getD_mem {α : Type} {l : List α} {i : ℕ} (h : i < l.length) (d : α) :
    l.getD i d ∈ l := by
  rw [List.getD_eq_getElem?_getD, List.getElem?_eq_getElem h]
  exact List.getElem_mem h

theorem getD_reverse {α : Type} {l : List α} {i : ℕ} (h : i < l.length) (d : α) :
    l.reverse.getD i d = l.getD (l.length - 1 - i) d := by
  rw [List.getD_eq_getElem?_getD, List.getD_eq_getElem?_getD, List.getElem?_reverse h]

theorem mem_map_range {α : Type} {f : ℕ → α} {n : ℕ} {v : α}
    (h : v ∈ (List.range n).map f) : ∃ i, i < n ∧ v = f i := by
  obtain ⟨i, hi, rfl⟩ := List.mem_map.1 h
  exact ⟨i, List.mem_range.1 hi, rfl⟩

/-! ### `pymin` / `pymax` facts -/

theorem foldl_min_le_init (xs : List ℝ) (a : ℝ) : xs.foldl min a ≤ a := by
  induction xs generalizing a with
  | nil => simp
  | cons x xs ih => exact le_trans (ih (min a x)) (min_le_left a x)

theorem foldl_min_le_mem {xs : List ℝ} {v : ℝ} (h : v ∈ xs) (a : ℝ) :
    xs.foldl min a ≤ v := by
  induction xs generalizing a with
  | nil => cases h
  | cons x xs ih =>
    rcases List.mem_cons.1 h with h1 | h1
    · subst h1
      exact le_trans (foldl_min_le_init xs (min a v)) (min_le_right a v)
    · exact ih h1 (min a x)

theorem foldl_min_mem (xs : List ℝ) (a : ℝ) :
    xs.foldl min a = a ∨ xs.foldl min a ∈ xs := by
  induction xs generalizing a with
  | nil => exact Or.inl rfl
  | cons x xs ih =>
    rw [List.foldl_cons]
    rcases ih (min a x) with h | h
    · rcases min_choice a x with h2 | h2
      · exact Or.inl (h.trans h2)
      · exact Or.inr (by rw [h, h2]; exact List.mem_cons_self x xs)
    · exact Or.inr (List.mem_cons_of_mem x h)

theorem init_le_foldl_max (xs : List ℝ) (a : ℝ) : a ≤ xs.foldl max a := by
  induction xs generalizing a with
  | nil => simp
  | cons x xs ih => exact le_trans (le_max_left a x) (ih (max a x))

theorem mem_le_foldl_max {xs : List ℝ} {v : ℝ} (h : v ∈ xs) (a : ℝ) :
    v ≤ xs.foldl max a := by
  induction xs generalizing a with
  | nil => cases h
  | cons x xs ih =>
    rcases List.mem_cons.1 h with h1 | h1
    · subst h1
      exact le_trans (le_max_right a v) (init_le_foldl_max xs (max a v))
    · exact ih h1 (max a x)

theorem foldl_max_mem (xs : List ℝ) (a : ℝ) :
    xs.foldl max a = a ∨ xs.foldl max a ∈ xs := by
  induction xs generalizing a with
  | nil => exact Or.inl rfl
  | cons x xs ih =>
    rw [List.foldl_cons]
    rcases ih (max a x) with h | h
    · rcases max_choice a x with h2 | h2
      · exact Or.inl (h.trans h2)
      · exact Or.inr (by rw [h, h2]; exact List.mem_cons_self x xs)
    · exact Or.inr (List.mem_cons_of_mem x h)

theorem pymin_le {l : List ℝ} {v : ℝ} (h : v ∈ l) : pymin l ≤ v := by
  cases l with
  | nil => cases h
  | cons x xs =>
    rcases List.mem_cons.1 h with h1 | h1
    · subst h1; exact foldl_min_le_init xs v
    · exact foldl_min_le_mem h1 x

theorem le_pymax {l : List ℝ} {v : ℝ} (h : v ∈ l) : v ≤ pymax l := by
  cases l with
  | nil => cases h
  | cons x xs =>
    rcases List.mem_cons.1 h with h1 | h1
    · subst h1; exact init_le_foldl_max xs v
    · exact mem_le_foldl_max h1 x

theorem pymin_mem {l : List ℝ} (h : l ≠ []) : pymin l ∈ l := by
  cases l with
  | nil => exact absurd rfl h
  | cons x xs =>
    rcases foldl_min_mem xs x with h1 | h1
    · rw [pymin, h1]; exact List.mem_cons_self x xs
    · exact List.mem_cons_of_mem x h1

theorem pymax_mem {l : List ℝ} (h : l ≠ []) : pymax l ∈ l := by
  cases l with
  | nil => exact absurd rfl h
  | cons x xs =>
    rcases foldl_max_mem xs x with h1 | h1
    · rw [pymax, h1]; exact List.mem_cons_self x xs
    · exact List.mem_cons_of_mem x h1

theorem pymin_le_pymax {l : List ℝ} (h : l ≠ []) : pymin l ≤ pymax l :=
  le_trans (pymin_le (pymin_mem h)) (le_pymax (pymin_mem h))

/-- If all elements of a nonempty list have the same value bound by min = max,
they are all equal to the min. -/
theorem all_eq_of_pymin_eq_pymax {l : List ℝ} (h : pymin l = pymax l) {v : ℝ}
    (hv : v ∈ l) : v = pymin l :=
  le_antisymm (h ▸ le_pymax hv) (pymin_le hv)

/-! ### Running sums -/

theorem runSum_zero (g : ℕ → ℝ) : runSum g 0 = g 0 := rfl

theorem runSum_succ (g : ℕ → ℝ) (n : ℕ) : runSum g (n + 1) = runSum g n + g (n + 1) := rfl

theorem runSum_eq_sum (g : ℕ → ℝ) (n : ℕ) :
    runSum g n = ∑ j ∈ Finset.range (n + 1), g j := by
  induction n with
  | zero => simp [runSum]
  | succ n ih => rw [runSum_succ, ih, ← Finset.sum_range_succ]

/-! ### Note frequencies -/

theorem a4_frequency_pos : 0 < a4_frequency := by unfold a4_frequency; norm_num

theorem note_frequencies_length : note_frequencies.length = 128 := by
  simp [note_frequencies]

theorem note_frequencies_getD {i : ℕ} (h : i < 128) :
    note_frequencies.getD i 0 = note_frequency i :=
  getD_map_range note_frequency h 0

theorem note_frequency_pos (i : ℕ) : 0 < note_frequency i :=
  mul_pos a4_frequency_pos (Real.rpow_pos_of_pos two_pos _)

theorem note_frequency_69 : note_frequency 69 = 440 := by
  have h : ((((69 : ℕ) : ℝ)) - ((a4_midi_number : ℕ) : ℝ)) / 12 = 0 := by
    norm_num [a4_midi_number]
  rw [note_frequency, h, Real.rpow_zero]
  unfold a4_frequency
  norm_num

theorem note_frequency_lt {i j : ℕ} (h : i < j) :
    note_frequency i < note_frequency j := by
  unfold note_frequency
  refine mul_lt_mul_of_pos_left ?_ a4_frequency_pos
  rw [Real.rpow_lt_rpow_left_iff (by norm_num : (1 : ℝ) < 2)]
  have hc : (i : ℝ) < (j : ℝ) := Nat.cast_lt.2 h
  linarith

/-! ### Rational bounds on real powers of two -/

theorem lt_rpow_div_of_pow_lt {a : ℝ} {n m : ℕ} (hm : 0 < m) (ha : 0 ≤ a)
    (h : a ^ m < 2 ^ n) : a < (2 : ℝ) ^ ((n : ℝ) / (m : ℝ)) := by
  have hx : (0 : ℝ) < (2 : ℝ) ^ ((n : ℝ) / (m : ℝ)) := Real.rpow_pos_of_pos two_pos _
  have hpow : ((2 : ℝ) ^ ((n : ℝ) / (m : ℝ))) ^ m = 2 ^ n := by
    rw [← Real.rpow_natCast ((2 : ℝ) ^ ((n : ℝ) / (m : ℝ))) m,
      ← Real.rpow_mul (by norm_num : (0 : ℝ) ≤ 2),
      div_mul_cancel₀ _ (by exact_mod_cast hm.ne' : (m : ℝ) ≠ 0)]
    exact Real.rpow_natCast 2 n
  exact (pow_lt_pow_iff_left₀ ha hx.le hm.ne').1 (by rw [hpow]; exact h)

theorem rpow_div_lt_of_lt_pow {b : ℝ} {n m : ℕ} (hm : 0 < m) (hb : 0 ≤ b)
    (h : 2 ^ n < b ^ m) : (2 : ℝ) ^ ((n : ℝ) / (m : ℝ)) < b := by
  have hx : (0 : ℝ) < (2 : ℝ) ^ ((n : ℝ) / (m : ℝ)) := Real.rpow_pos_of_pos two_pos _
  have hpow : ((2 : ℝ) ^ ((n : ℝ) / (m : ℝ))) ^ m = 2 ^ n := by
    rw [← Real.rpow_natCast ((2 : ℝ) ^ ((n : ℝ) / (m : ℝ))) m,
      ← Real.rpow_mul (by norm_num : (0 : ℝ) ≤ 2),
      div_mul_cancel₀ _ (by exact_mod_cast hm.ne' : (m : ℝ) ≠ 0)]
    exact Real.rpow_natCast 2 n
  exact (pow_lt_pow_iff_left₀ hx.le hb hm.ne').1 (by rw [hpow]; exact h)

theorem rpow_58_12_lo : (28.5087 : ℝ) < (2 : ℝ) ^ ((58 : ℝ) / 12) := by
  have h : (28.5087 : ℝ) < (2 : ℝ) ^ (((58 : ℕ) : ℝ) / ((12 : ℕ) : ℝ)) :=
    lt_rpow_div_of_pow_lt (by norm_num) (by norm_num) (by norm_num)
  simpa using h

theorem rpow_58_12_hi : (2 : ℝ) ^ ((58 : ℝ) / 12) < 28.5088 := by
  have h : (2 : ℝ) ^ (((58 : ℕ) : ℝ) / ((12 : ℕ) : ℝ)) < 28.5088 :=
    rpow_div_lt_of_lt_pow (by norm_num) (by norm_num) (by norm_num)
  simpa using h

/-! ### The per-octave reference period `P` and harmonic count `M` -/

theorem refIdx_lt (oct : ℕ) : refIdx oct < 128 := by
  unfold refIdx; split <;> omega

theorem refIdx_eq {oct : ℕ} (h : oct < 10) : refIdx oct = oct * 12 + 11 := by
  unfold refIdx
  rw [if_pos (by omega)]

theorem refFreq_eq (oct : ℕ) : refFreq oct = note_frequency (refIdx oct) := by
  unfold refFreq
  exact note_frequencies_getD (refIdx_lt oct)

theorem refFreq_pos (oct : ℕ) : 0 < refFreq oct := by
  rw [refFreq_eq]; exact note_frequency_pos _

theorem P_pos (oct : ℕ) : 0 < P oct :=
  div_pos (by norm_num [audio_sample_rate]) (refFreq_pos oct)

theorem P_eq {oct : ℕ} (h : oct < 10) :
    P oct = (1200 / 11) * ((2 : ℝ) ^ ((58 : ℝ) / 12) / 2 ^ oct) := by
  unfold P
  rw [refFreq_eq, refIdx_eq h]
  unfold note_frequency a4_frequency a4_midi_number audio_sample_rate
  have he : (((oct * 12 + 11 : ℕ) : ℝ) - ((69 : ℕ) : ℝ)) / 12 = (oct : ℝ) - (58 : ℝ) / 12 := by
    push_cast; ring
  rw [he, Real.rpow_sub two_pos, Real.rpow_natCast]
  have h1 : (2 : ℝ) ^ oct ≠ 0 := pow_ne_zero _ two_ne_zero
  have h2 : (2 : ℝ) ^ ((58 : ℝ) / 12) ≠ 0 := (Real.rpow_pos_of_pos two_pos _).ne'
  field_simp
  ring

theorem P_bounds {oct : ℕ} (h : oct < 10) :
    (1200 / 11) * ((28.5087 : ℝ) / 2 ^ oct) < P oct ∧
      P oct < (1200 / 11) * ((28.5088 : ℝ) / 2 ^ oct) := by
  rw [P_eq h]
  have hp : (0 : ℝ) < 2 ^ oct := by positivity
  constructor
  · exact mul_lt_mul_of_pos_left ((div_lt_div_iff_of_pos_right hp).2 rpow_58_12_lo) (by norm_num)
  · exact mul_lt_mul_of_pos_left ((div_lt_div_iff_of_pos_right hp).2 rpow_58_12_hi) (by norm_num)

theorem M_odd_ne_zero (oct : ℕ) : M oct ≠ 0 := by
  unfold M; omega

theorem M_ge_three {oct : ℕ} (h : oct < 10) : 3 ≤ M oct := by
  have hlo := (P_bounds h).1
  have hp : (0 : ℝ) < 2 ^ oct := by positivity
  have hmono : (1200 / 11) * ((28.5087 : ℝ) / 2 ^ 9) ≤ (1200 / 11) * (28.5087 / 2 ^ oct) := by
    refine mul_le_mul_of_nonneg_left ?_ (by norm_num)
    exact div_le_div_of_nonneg_left (by norm_num) hp
      (pow_le_pow_right₀ (by norm_num) (by omega))
  have h6 : (6 : ℝ) < P oct := by
    refine lt_of_le_of_lt ?_ hlo
    refine le_trans ?_ hmono
    norm_num
  have h3 : (1 : ℤ) ≤ ⌊P oct / 2⌋ := by
    rw [Int.le_floor]
    push_cast
    linarith
  unfold M
  omega

theorem int_ne_of_btwn (n : ℤ) {x : ℝ} (h1 : (n : ℝ) < x) (h2 : x < (n : ℝ) + 1)
    (z : ℤ) : x ≠ (z : ℝ) := by
  intro he
  rw [he] at h1 h2
  have ha : n < z := by exact_mod_cast h1
  have hb : (z : ℝ) < ((n + 1 : ℤ) : ℝ) := by push_cast; linarith
  have hc : z < n + 1 := by exact_mod_cast hb
  omega

theorem P_ne_int {oct : ℕ} (h : oct < 10) (z : ℤ) : P oct ≠ (z : ℝ) := by
  obtain ⟨hlo, hhi⟩ := P_bounds h
  interval_cases oct
  · exact int_ne_of_btwn 3110 (lt_of_le_of_lt (by norm_num) hlo)
      (lt_of_lt_of_le hhi (by norm_num)) z
  · exact int_ne_of_btwn 1555 (lt_of_le_of_lt (by norm_num) hlo)
      (lt_of_lt_of_le hhi (by norm_num)) z
  · exact int_ne_of_btwn 777 (lt_of_le_of_lt (by norm_num) hlo)
      (lt_of_lt_of_le hhi (by norm_num)) z
  · exact int_ne_of_btwn 388 (lt_of_le_of_lt (by norm_num) hlo)
      (lt_of_lt_of_le hhi (by norm_num)) z
  · exact int_ne_of_btwn 194 (lt_of_le_of_lt (by norm_num) hlo)
      (lt_of_lt_of_le hhi (by norm_num)) z
  · exact int_ne_of_btwn 97 (lt_of_le_of_lt (by norm_num) hlo)
      (lt_of_lt_of_le hhi (by norm_num)) z
  · exact int_ne_of_btwn 48 (lt_of_le_of_lt (by norm_num) hlo)
      (lt_of_lt_of_le hhi (by norm_num)) z
  · exact int_ne_of_btwn 24 (lt_of_le_of_lt (by norm_num) hlo)
      (lt_of_lt_of_le hhi (by norm_num)) z
  · exact int_ne_of_btwn 12 (lt_of_le_of_lt (by norm_num) hlo)
      (lt_of_lt_of_le hhi (by norm_num)) z
  · exact int_ne_of_btwn 6 (lt_of_le_of_lt (by norm_num) hlo)
      (lt_of_lt_of_le hhi (by norm_num)) z

/-! ### The BLIT kernel -/

theorem xval_eq (i : ℕ) : xval i = ((i : ℝ) - 256) / 512 := by
  unfold xval waveform_samples_per_cycle
  norm_num

theorem sin_pi_xval_ne_zero {i : ℕ} (h : i < 512) (hne : i ≠ 256) :
    Real.sin (π * xval i) ≠ 0 := by
  intro hs
  have hge : (0 : ℝ) ≤ (i : ℝ) := Nat.cast_nonneg i
  have hlt : (i : ℝ) ≤ 511 := by exact_mod_cast Nat.lt_succ_iff.1 h
  have hb1 : -(1 : ℝ) < xval i := by rw [xval_eq]; linarith
  have hb2 : xval i < 1 := by rw [xval_eq]; linarith
  have hpx1 : -π < π * xval i := by
    have := mul_lt_mul_of_pos_left hb1 Real.pi_pos
    linarith
  have hpx2 : π * xval i < π := by
    have := mul_lt_mul_of_pos_left hb2 Real.pi_pos
    linarith
  have h0 : π * xval i = 0 := (Real.sin_eq_zero_iff_of_lt_of_lt hpx1 hpx2).1 hs
  have hx0 : xval i = 0 := by
    rcases mul_eq_zero.1 h0 with hpi | hx
    · exact absurd hpi Real.pi_ne_zero
    · exact hx
  rw [xval_eq] at hx0
  have : (i : ℝ) = 256 := by
    have h512 : ((i : ℝ) - 256) = 0 := by
      field_simp at hx0
      linarith
    linarith
  exact hne (by exact_mod_cast this)

theorem blitDenom_eq_zero_iff {oct i : ℕ} (h : i < 512) :
    blitDenom oct i = 0 ↔ i = 256 := by
  constructor
  · intro h0
    by_contra hne
    unfold blitDenom at h0
    rcases mul_eq_zero.1 h0 with hM | hs
    · exact M_odd_ne_zero oct (by exact_mod_cast hM)
    · exact sin_pi_xval_ne_zero h hne hs
  · rintro rfl
    unfold blitDenom
    have hx : xval 256 = 0 := by rw [xval_eq]; norm_num
    rw [hx, mul_zero, Real.sin_zero, mul_zero]

theorem foldl_pick_of_forall_not {p : ℕ → Prop} [DecidablePred p] (l : List ℕ) (a : ℕ)
    (h : ∀ i ∈ l, ¬ p i) :
    l.foldl (fun acc i => if p i then i else acc) a = a := by
  induction l generalizing a with
  | nil => rfl
  | cons x xs ih =>
    rw [List.foldl_cons, if_neg (h x (List.mem_cons_self x xs))]
    exact ih a (fun i hi => h i (List.mem_cons_of_mem x hi))

theorem mid_eq (oct : ℕ) : mid oct = 256 := by
  unfold mid waveform_samples_per_cycle
  rw [show (0x200 : ℕ) = 257 + 255 from rfl, List.range_add, List.foldl_append]
  rw [show (257 : ℕ) = 256 + 1 from rfl, List.range_succ, List.foldl_append]
  rw [foldl_pick_of_forall_not (List.range 256) 0 ?notlow]
  case notlow =>
    intro i hi h0
    have hilt : i < 256 := List.mem_range.1 hi
    exact absurd ((blitDenom_eq_zero_iff (by omega)).1 h0) (by omega)
  rw [List.foldl_cons, List.foldl_nil,
    if_pos ((blitDenom_eq_zero_iff (by norm_num)).2 rfl)]
  refine foldl_pick_of_forall_not _ 256 ?_
  intro i hi h0
  obtain ⟨j, hj, rfl⟩ := List.mem_map.1 hi
  have hjlt : j < 255 := List.mem_range.1 hj
  exact absurd ((blitDenom_eq_zero_iff (by omega)).1 h0) (by omega)

theorem blit_mid_val (oct : ℕ) : blit oct 256 = 1 := by
  unfold blit
  rw [if_pos ((blitDenom_eq_zero_iff (by norm_num)).2 rfl)]
  norm_num

theorem blit_eq {oct i : ℕ} (h : i < 512) (hne : i ≠ 256) :
    blit oct i = Real.sin (π * xval i * (M oct : ℝ)) / blitDenom oct i := by
  unfold blit
  rw [if_neg (fun h0 => hne ((blitDenom_eq_zero_iff h).1 h0))]

theorem blit_zero_val (oct : ℕ) :
    ∃ s : ℝ, (s = 1 ∨ s = -1) ∧ blit oct 0 = s / (M oct : ℝ) := by
  have h0 : xval 0 = -(1 / 2) := by rw [xval_eq]; norm_num
  have hd : blitDenom oct 0 = -(M oct : ℝ) := by
    unfold blitDenom
    rw [h0, show π * -(1 / 2) = -(π / 2) by ring, Real.sin_neg, Real.sin_pi_div_two]
    ring
  obtain ⟨k, hk⟩ : ∃ k : ℤ, M oct = 2 * k + 1 := ⟨⌊P oct / 2⌋, rfl⟩
  have hsin : Real.sin (π * (M oct : ℝ) / 2) = Real.cos ((k : ℝ) * π) := by
    rw [show π * (M oct : ℝ) / 2 = (k : ℝ) * π + π / 2 by rw [hk]; push_cast; ring,
      Real.sin_add_pi_div_two]
  have habs : Real.cos ((k : ℝ) * π) = 1 ∨ Real.cos ((k : ℝ) * π) = -1 :=
    (abs_eq zero_le_one).1 (Real.abs_cos_int_mul_pi k)
  refine ⟨Real.cos ((k : ℝ) * π), habs, ?_⟩
  rw [blit_eq (by norm_num) (by norm_num), hd, h0,
    show π * -(1 / 2) * (M oct : ℝ) = -(π * (M oct : ℝ) / 2) by ring,
    Real.sin_neg, hsin, neg_div_neg_eq]

/-! ### The square wave before quantization -/

theorem shiftIdx_256_of_lt {i : ℕ} (h : i < 256) : shiftIdx 256 i = i + 256 := by
  unfold shiftIdx
  rw [if_pos h]

theorem shiftIdx_256_of_ge {i : ℕ} (h : 256 ≤ i) : shiftIdx 256 i = i - 256 := by
  unfold shiftIdx
  rw [if_neg (by omega)]

theorem shiftIdx_256_lt {i : ℕ} (h : i < 512) : shiftIdx 256 i < 512 := by
  unfold shiftIdx
  split <;> omega

theorem shiftIdx_256_invol {i : ℕ} (h : i < 512) :
    shiftIdx 256 (shiftIdx 256 i) = i := by
  simp only [shiftIdx]
  split <;> split <;> omega

theorem squareF_zero_val (oct : ℕ) :
    ∃ s : ℝ, (s = 1 ∨ s = -1) ∧ squareF oct 0 = s / (M oct : ℝ) - 1 := by
  obtain ⟨s, hs, hb⟩ := blit_zero_val oct
  refine ⟨s, hs, ?_⟩
  show runSum (squareTerm oct) 0 = s / (M oct : ℝ) - 1
  rw [runSum_zero]
  unfold squareTerm
  rw [mid_eq, shiftIdx_256_of_lt (by norm_num)]
  norm_num [blit_mid_val, hb]

theorem squareF_diff (oct : ℕ) :
    squareF oct 256 - squareF oct 255 = 1 - blit oct 0 := by
  have ht : squareTerm oct 256 = 1 - blit oct 0 := by
    unfold squareTerm
    rw [mid_eq, shiftIdx_256_of_ge (by norm_num)]
    norm_num [blit_mid_val]
  show runSum (squareTerm oct) 256 - runSum (squareTerm oct) 255 = 1 - blit oct 0
  rw [show (256 : ℕ) = 255 + 1 from rfl, runSum_succ]
  rw [show (255 : ℕ) + 1 = 256 from rfl, ht]
  ring

theorem squareF_511 (oct : ℕ) : squareF oct 511 = 0 := by
  show runSum (squareTerm oct) 511 = 0
  rw [runSum_eq_sum]
  unfold squareTerm
  rw [show (511 : ℕ) + 1 = 512 from rfl, Finset.sum_sub_distrib]
  have hre : ∑ j ∈ Finset.range 512, blit oct (shiftIdx (mid oct) j) =
      ∑ j ∈ Finset.range 512, blit oct j := by
    rw [mid_eq]
    refine Finset.sum_nbij' (fun j => shiftIdx 256 j) (fun j => shiftIdx 256 j)
      ?_ ?_ ?_ ?_ ?_
    · intro a ha
      exact Finset.mem_range.2 (shiftIdx_256_lt (Finset.mem_range.1 ha))
    · intro a ha
      exact Finset.mem_range.2 (shiftIdx_256_lt (Finset.mem_range.1 ha))
    · intro a ha
      exact shiftIdx_256_invol (Finset.mem_range.1 ha)
    · intro a ha
      exact shiftIdx_256_invol (Finset.mem_range.1 ha)
    · intro a ha
      rfl
  rw [hre, sub_self]

theorem M_real_ge {oct : ℕ} (h : oct < 10) : (3 : ℝ) ≤ (M oct : ℝ) := by
  exact_mod_cast M_ge_three h

theorem blit_zero_abs_le {oct : ℕ} (h : oct < 10) :
    blit oct 0 ≤ 1 / 3 ∧ -(1 / 3 : ℝ) ≤ blit oct 0 := by
  obtain ⟨s, hs, hb⟩ := blit_zero_val oct
  have hM := M_real_ge h
  have hMpos : (0 : ℝ) < (M oct : ℝ) := by linarith
  have h13 : 1 / (M oct : ℝ) ≤ 1 / 3 := by
    rw [div_le_div_iff₀ hMpos (by norm_num)]
    linarith
  have h13b : (0 : ℝ) < 1 / (M oct : ℝ) := by positivity
  rcases hs with rfl | rfl
  · rw [hb]; constructor <;> linarith
  · rw [hb, neg_div]; constructor <;> linarith

theorem squareF_zero_le {oct : ℕ} (h : oct < 10) : squareF oct 0 ≤ -(2 / 3 : ℝ) := by
  obtain ⟨s, hs, he⟩ := squareF_zero_val oct
  have hM := M_real_ge h
  have hMpos : (0 : ℝ) < (M oct : ℝ) := by linarith
  have h13 : 1 / (M oct : ℝ) ≤ 1 / 3 := by
    rw [div_le_div_iff₀ hMpos (by norm_num)]
    linarith
  have h13b : (0 : ℝ) < 1 / (M oct : ℝ) := by positivity
  rcases hs with rfl | rfl
  · rw [he]; linarith
  · rw [he, neg_div]; linarith

theorem squareF_diff_ge {oct : ℕ} (h : oct < 10) :
    (2 / 3 : ℝ) ≤ squareF oct 256 - squareF oct 255 := by
  rw [squareF_diff]
  have := (blit_zero_abs_le h).1
  linarith

theorem squareList_length (oct : ℕ) : (squareList oct).length = 512 := by
  simp [squareList, waveform_samples_per_cycle]

theorem squareList_getD {oct i : ℕ} (h : i < 512) :
    (squareList oct).getD i 0 = squareF oct i :=
  getD_map_range (squareF oct) h 0

theorem squareF_mem (oct : ℕ) {i : ℕ} (h : i < 512) :
    squareF oct i ∈ squareList oct := by
  rw [← squareList_getD h]
  exact getD_mem (by rw [squareList_length]; omega) 0

theorem square_min_lt_max {oct : ℕ} (h : oct < 10) :
    pymin (squareList oct) < pymax (squareList oct) := by
  have h1 : pymin (squareList oct) ≤ squareF oct 0 :=
    pymin_le (squareF_mem oct (by norm_num))
  have h2 : squareF oct 511 ≤ pymax (squareList oct) :=
    le_pymax (squareF_mem oct (by norm_num))
  have h3 := squareF_zero_le h
  have h4 := squareF_511 oct
  linarith

theorem fix_some_of_lt {a : List ℝ} (h : pymin a < pymax a) :
    fix_wavetable a = some (fixMutated a).reverse := by
  unfold fix_wavetable
  rw [if_neg (abs_ne_zero.2 (sub_ne_zero.2 (ne_of_gt h)))]

/-! ### Quantization -/

theorem pyInt_nonneg_eq_floor {x : ℝ} (h : 0 ≤ x) : pyInt x = ⌊x⌋ := by
  unfold pyInt
  rw [if_neg (not_lt.2 h)]

theorem getD_map {α β : Type} (f : α → β) {l : List α} {i : ℕ} (h : i < l.length)
    (d : β) (d2 : α) : (l.map f).getD i d = f (l.getD i d2) := by
  simp [List.getD_eq_getElem?_getD, List.getElem?_eq_getElem h]

theorem fixScale_eq_floor {a : List ℝ} (hlt : pymin a < pymax a) {v : ℝ}
    (hv1 : pymin a ≤ v) :
    fixScale a v = ⌊(v - pymin a) * (4094 / (pymax a - pymin a))⌋ - 2047 := by
  have hpos : (0 : ℝ) < pymax a - pymin a := by linarith
  unfold fixScale waveform_amplitude
  rw [abs_of_pos hpos]
  rw [pyInt_nonneg_eq_floor (mul_nonneg (by linarith) (le_of_lt (by positivity)))]
  norm_num

theorem fixScale_min {a : List ℝ} (hlt : pymin a < pymax a) :
    fixScale a (pymin a) = -2047 := by
  rw [fixScale_eq_floor hlt le_rfl]
  norm_num

theorem fixScale_max {a : List ℝ} (hlt : pymin a < pymax a) :
    fixScale a (pymax a) = 2047 := by
  have hpos : (0 : ℝ) < pymax a - pymin a := by linarith
  rw [fixScale_eq_floor hlt (le_of_lt hlt)]
  rw [show (pymax a - pymin a) * (4094 / (pymax a - pymin a)) = 4094 by
    field_simp]
  norm_num

theorem fixScale_bounds {a : List ℝ} (hlt : pymin a < pymax a) {v : ℝ}
    (hv1 : pymin a ≤ v) (hv2 : v ≤ pymax a) :
    -2047 ≤ fixScale a v ∧ fixScale a v ≤ 2047 := by
  have hpos : (0 : ℝ) < pymax a - pymin a := by linarith
  have hk : (0 : ℝ) < 4094 / (pymax a - pymin a) := by positivity
  rw [fixScale_eq_floor hlt hv1]
  constructor
  · have h0 : (0 : ℤ) ≤ ⌊(v - pymin a) * (4094 / (pymax a - pymin a))⌋ :=
      Int.floor_nonneg.2 (mul_nonneg (by linarith) (le_of_lt hk))
    omega
  · have hle : (v - pymin a) * (4094 / (pymax a - pymin a)) ≤ 4094 := by
      have h1 : (v - pymin a) * (4094 / (pymax a - pymin a)) ≤
          (pymax a - pymin a) * (4094 / (pymax a - pymin a)) :=
        mul_le_mul_of_nonneg_right (by linarith) (le_of_lt hk)
      rw [show (pymax a - pymin a) * (4094 / (pymax a - pymin a)) = 4094 by
        field_simp] at h1
      exact h1
    have h2 : ⌊(v - pymin a) * (4094 / (pymax a - pymin a))⌋ ≤ 4094 := by
      have := Int.floor_le_floor hle
      simpa using this
    omega

theorem le_of_fixScale_eq_max {a : List ℝ} (hlt : pymin a < pymax a) {v : ℝ}
    (hv1 : pymin a ≤ v) (h2047 : fixScale a v = 2047) : pymax a ≤ v := by
  have hpos : (0 : ℝ) < pymax a - pymin a := by linarith
  have hk : (0 : ℝ) < 4094 / (pymax a - pymin a) := by positivity
  rw [fixScale_eq_floor hlt hv1] at h2047
  have hfl : ⌊(v - pymin a) * (4094 / (pymax a - pymin a))⌋ = 4094 := by omega
  have hge : (4094 : ℝ) ≤ (v - pymin a) * (4094 / (pymax a - pymin a)) := by
    have := hfl ▸ Int.floor_le ((v - pymin a) * (4094 / (pymax a - pymin a)))
    calc (4094 : ℝ) = ((4094 : ℤ) : ℝ) := by norm_num
    _ ≤ _ := by rw [← hfl]; exact Int.floor_le _
  have hdiv : 4094 / (4094 / (pymax a - pymin a)) ≤ v - pymin a :=
    (div_le_iff₀ hk).2 (by linarith [hge])
  rw [show (4094 : ℝ) / (4094 / (pymax a - pymin a)) = pymax a - pymin a by
    field_simp] at hdiv
  linarith

theorem pymin_lt_pymax_of_ne {l : List ℝ} {u v : ℝ} (hu : u ∈ l) (hv : v ∈ l)
    (hne : u ≠ v) : pymin l < pymax l := by
  refine lt_of_le_of_ne (pymin_le_pymax (List.ne_nil_of_mem hu)) ?_
  intro heq
  have ha := all_eq_of_pymin_eq_pymax heq hu
  have hb := all_eq_of_pymin_eq_pymax heq hv
  exact hne (by rw [ha, hb])

/-! ### The sawtooth before quantization -/

theorem sawtoothF_diff (oct : ℕ) :
    sawtoothF oct 255 - sawtoothF oct 256 = blit oct 0 - 1 / P oct := by
  have ht : sawtoothTerm oct 256 = blit oct 0 - 1 / P oct := by
    unfold sawtoothTerm
    rw [mid_eq, shiftIdx_256_of_ge (by norm_num)]
  have hs : runSum (sawtoothTerm oct) 256 =
      runSum (sawtoothTerm oct) 255 + sawtoothTerm oct 256 :=
    runSum_succ (sawtoothTerm oct) 255
  unfold sawtoothF
  rw [hs, ht]
  ring

theorem sawtooth_ne {oct : ℕ} (h : oct < 10) :
    sawtoothF oct 255 ≠ sawtoothF oct 256 := by
  intro he
  have hd : blit oct 0 - 1 / P oct = 0 := by
    rw [← sawtoothF_diff, he, sub_self]
  obtain ⟨s, hs, hb⟩ := blit_zero_val oct
  have hP := P_pos oct
  have hMpos : (0 : ℝ) < (M oct : ℝ) := by
    have := M_real_ge h
    linarith
  rcases hs with rfl | rfl
  · rw [hb] at hd
    have h1M : 1 / (M oct : ℝ) = 1 / P oct := by linarith
    have heq : P oct = (M oct : ℝ) := by
      field_simp at h1M
      linarith
    exact P_ne_int h (M oct) heq
  · rw [hb, neg_div] at hd
    have h1 : (0 : ℝ) < 1 / (M oct : ℝ) := by positivity
    have h2 : (0 : ℝ) < 1 / P oct := by positivity
    linarith

theorem sawtoothList_length (oct : ℕ) : (sawtoothList oct).length = 512 := by
  simp [sawtoothList, waveform_samples_per_cycle]

theorem sawtoothList_getD {oct i : ℕ} (h : i < 512) :
    (sawtoothList oct).getD i 0 = sawtoothF oct i :=
  getD_map_range (sawtoothF oct) h 0

theorem sawtoothF_mem (oct : ℕ) {i : ℕ} (h : i < 512) :
    sawtoothF oct i ∈ sawtoothList oct := by
  rw [← sawtoothList_getD h]
  exact getD_mem (by rw [sawtoothList_length]; omega) 0

theorem sawtooth_min_lt_max {oct : ℕ} (h : oct < 10) :
    pymin (sawtoothList oct) < pymax (sawtoothList oct) :=
  pymin_lt_pymax_of_ne (sawtoothF_mem oct (by norm_num))
    (sawtoothF_mem oct (by norm_num)) (sawtooth_ne h)

/-! ### The triangle before quantization -/

theorem squareQuant_getD {oct i : ℕ} (h : i < 512) :
    (squareQuant oct).getD i 0 = fixScale (squareList oct) (squareF oct i) := by
  unfold squareQuant fixMutated
  rw [getD_map (fixScale (squareList oct)) (by rw [squareList_length]; omega) 0 0,
    squareList_getD h]

theorem triangleList_length (oct : ℕ) : (triangleList oct).length = 512 := by
  simp [triangleList, waveform_samples_per_cycle]

theorem triangleList_getD {oct i : ℕ} (h : i < 512) :
    (triangleList oct).getD i 0 = triangleF oct i :=
  getD_map_range (triangleF oct) h 0

theorem triangleF_mem (oct : ℕ) {i : ℕ} (h : i < 512) :
    triangleF oct i ∈ triangleList oct := by
  rw [← triangleList_getD h]
  exact getD_mem (by rw [triangleList_length]; omega) 0

theorem triangleRot_mem {oct : ℕ} {v : ℝ} (hv : v ∈ triangleList oct) :
    v ∈ triangleRot oct := by
  unfold triangleRot
  rw [← List.take_append_drop triangle_start (triangleList oct)] at hv
  rcases List.mem_append.1 hv with h1 | h1
  · exact List.mem_append.2 (Or.inr h1)
  · exact List.mem_append.2 (Or.inl h1)

theorem triangle_min_lt_max {oct : ℕ} (h : oct < 10) :
    pymin (triangleRot oct) < pymax (triangleRot oct) := by
  have hnil : triangleRot oct ≠ [] := by
    have : (triangleRot oct).length = 512 := by
      unfold triangleRot
      rw [List.length_append, List.length_drop, List.length_take, triangleList_length]
      rfl
    intro hemp
    rw [hemp] at this
    exact absurd this (by norm_num)
  refine lt_of_le_of_ne (pymin_le_pymax hnil) ?_
  intro heq
  have hall : ∀ i, i < 512 → triangleF oct i = pymin (triangleRot oct) := fun i hi =>
    all_eq_of_pymin_eq_pymax heq (triangleRot_mem (triangleF_mem oct hi))
  -- every step of the triangle loop contributes zero, so every quantized
  -- square sample (index ≥ 1) equals the real-valued average
  have hstep : ∀ j, 1 ≤ j → j < 512 →
      ((squareQuant oct).getD j 0 : ℝ) = square_avg oct := by
    intro j h1 h2
    obtain ⟨j0, rfl⟩ : ∃ j0, j = j0 + 1 := ⟨j - 1, by omega⟩
    have ha := hall (j0 + 1) h2
    have hb := hall j0 (by omega)
    have hsum : triangleF oct (j0 + 1) = triangleF oct j0 + triangleTerm oct (j0 + 1) :=
      runSum_succ (triangleTerm oct) j0
    have hterm : triangleTerm oct (j0 + 1) = 0 := by
      rw [ha, hb] at hsum
      linarith
    unfold triangleTerm at hterm
    linarith [hterm]
  have hlt := square_min_lt_max h
  -- the real-valued square attains its max at a nonzero index
  obtain ⟨iM, hiMlt, hiMeq⟩ :
      ∃ iM, iM < 512 ∧ pymax (squareList oct) = squareF oct iM := by
    have hmem := pymax_mem
      (show squareList oct ≠ [] by
        rw [← List.length_pos_iff_ne_nil, squareList_length]; norm_num)
    have : pymax (squareList oct) ∈
        (List.range waveform_samples_per_cycle).map (squareF oct) := hmem
    exact mem_map_range this
  have hiM0 : iM ≠ 0 := by
    intro h0
    rw [h0] at hiMeq
    have h1 := squareF_zero_le h
    have h2 : squareF oct 511 ≤ pymax (squareList oct) :=
      le_pymax (squareF_mem oct (by norm_num))
    rw [squareF_511] at h2
    rw [hiMeq] at h2
    linarith
  have havg : square_avg oct = ((2047 : ℤ) : ℝ) := by
    have hq := hstep iM (by omega) hiMlt
    rw [squareQuant_getD hiMlt, ← hiMeq, fixScale_max hlt] at hq
    rw [← hq]
  -- indices 255 and 256 then both quantize to the maximum bucket, forcing
  -- the real square to be flat across the 255 → 256 jump
  have hflat : ∀ j, 1 ≤ j → j < 512 → pymax (squareList oct) ≤ squareF oct j := by
    intro j h1 h2
    have hq := hstep j h1 h2
    rw [squareQuant_getD h2, havg] at hq
    have hqz : fixScale (squareList oct) (squareF oct j) = 2047 := by
      exact_mod_cast hq
    exact le_of_fixScale_eq_max hlt (pymin_le (squareF_mem oct h2)) hqz
  have h255 : squareF oct 255 = pymax (squareList oct) :=
    le_antisymm (le_pymax (squareF_mem oct (by norm_num)))
      (hflat 255 (by norm_num) (by norm_num))
  have h256 : squareF oct 256 = pymax (squareList oct) :=
    le_antisymm (le_pymax (squareF_mem oct (by norm_num)))
      (hflat 256 (by norm_num) (by norm_num))
  have hd := squareF_diff_ge h
  rw [h255, h256] at hd
  linarith

/-! ### Phase steps -/

theorem step_eq {i : ℕ} (h : i < 128) :
    step i = 512 * note_frequency i / 48000 := by
  unfold step
  rw [note_frequencies_getD h, div_div_eq_mul_div]
  norm_num [waveform_samples_per_cycle, audio_sample_rate]

theorem step_pos {i : ℕ} (h : i < 128) : 0 < step i := by
  rw [step_eq h]
  have := note_frequency_pos i
  positivity

theorem step69_eq : step 69 * 65536 = (23068672 : ℝ) / 75 := by
  rw [step_eq (by norm_num), note_frequency_69]
  norm_num

theorem rpow_7_12_lo : (1.4983066 : ℝ) < (2 : ℝ) ^ ((7 : ℝ) / 12) := by
  have h : (1.4983066 : ℝ) < (2 : ℝ) ^ (((7 : ℕ) : ℝ) / ((12 : ℕ) : ℝ)) :=
    lt_rpow_div_of_pow_lt (by norm_num) (by norm_num) (by norm_num)
  simpa using h

theorem rpow_7_12_hi : (2 : ℝ) ^ ((7 : ℝ) / 12) < 1.4983077 := by
  have h : (2 : ℝ) ^ (((7 : ℕ) : ℝ) / ((12 : ℕ) : ℝ)) < 1.4983077 :=
    rpow_div_lt_of_lt_pow (by norm_num) (by norm_num) (by norm_num)
  simpa using h

theorem step76_eq : step 76 * 65536 = (23068672 : ℝ) / 75 * (2 : ℝ) ^ ((7 : ℝ) / 12) := by
  rw [step_eq (by norm_num)]
  unfold note_frequency a4_frequency a4_midi_number
  rw [show (((76 : ℕ) : ℝ) - ((69 : ℕ) : ℝ)) / 12 = (7 : ℝ) / 12 by push_cast; norm_num]
  ring

theorem step76_bounds :
    (460852.5 : ℝ) < step 76 * 65536 ∧ step 76 * 65536 < 460853 := by
  rw [step76_eq]
  constructor
  · have h1 : (23068672 : ℝ) / 75 * 1.4983066 <
        (23068672 : ℝ) / 75 * (2 : ℝ) ^ ((7 : ℝ) / 12) :=
      mul_lt_mul_of_pos_left rpow_7_12_lo (by norm_num)
    refine lt_of_le_of_lt ?_ h1
    norm_num
  · have h1 : (23068672 : ℝ) / 75 * (2 : ℝ) ^ ((7 : ℝ) / 12) <
        (23068672 : ℝ) / 75 * 1.4983077 :=
      mul_lt_mul_of_pos_left rpow_7_12_hi (by norm_num)
    refine lt_of_lt_of_le h1 ?_
    norm_num

theorem step_data_69_val : step_data 69 = 307582 := by
  unfold step_data
  rw [step69_eq, pyInt_nonneg_eq_floor (by norm_num)]
  rw [Int.floor_eq_iff]
  constructor <;> norm_num

theorem step_data_76_val : step_data 76 = 460852 := by
  obtain ⟨h1, h2⟩ := step76_bounds
  unfold step_data
  rw [pyInt_nonneg_eq_floor (by linarith)]
  rw [Int.floor_eq_iff]
  constructor
  · push_cast; linarith
  · push_cast; linarith

theorem round_step_76 : round (step 76 * 65536) = 460853 := by
  obtain ⟨h1, h2⟩ := step76_bounds
  rw [round_eq, Int.floor_eq_iff]
  constructor
  · push_cast; linarith
  · push_cast; linarith

/-! ### Remaining structural facts -/

theorem wavetable_octaves_eq : wavetable_octaves = 10 := by
  unfold wavetable_octaves
  have hc : ⌈(128 : ℚ) / 12⌉ = 11 := by
    rw [Int.ceil_eq_iff]
    constructor <;> norm_num
  rw [hc]
  rfl

theorem sine_length : sine.length = 512 := by
  unfold sine
  rw [List.length_map, List.length_range]
  rfl

theorem sine_mem_bound {v : ℝ} (hv : v ∈ sine) : -2047 ≤ v ∧ v ≤ 2047 := by
  unfold sine at hv
  obtain ⟨i, hi, rfl⟩ := mem_map_range hv
  have h1 := Real.sin_le_one (2 * π * (i : ℝ) / (waveform_samples_per_cycle : ℝ))
  have h2 := Real.neg_one_le_sin (2 * π * (i : ℝ) / (waveform_samples_per_cycle : ℝ))
  have ha : ((waveform_amplitude : ℤ) : ℝ) = 2047 := by
    unfold waveform_amplitude
    norm_num
  rw [ha]
  constructor <;> nlinarith

theorem squareF_zero_not_int {oct : ℕ} (h : oct < 10) (z : ℤ) :
    squareF oct 0 ≠ (z : ℝ) := by
  obtain ⟨s, hs, he⟩ := squareF_zero_val oct
  have hM := M_real_ge h
  have hMpos : (0 : ℝ) < (M oct : ℝ) := by linarith
  have h13 : 1 / (M oct : ℝ) ≤ 1 / 3 := by
    rw [div_le_div_iff₀ hMpos (by norm_num)]
    linarith
  have h13b : (0 : ℝ) < 1 / (M oct : ℝ) := by positivity
  rcases hs with rfl | rfl
  · rw [he]
    refine int_ne_of_btwn (-1) ?_ ?_ z
    · push_cast; linarith
    · push_cast; linarith
  · rw [he, neg_div]
    refine int_ne_of_btwn (-2) ?_ ?_ z
    · push_cast; linarith
    · push_cast; linarith

/-! ### Ramp and normalizer result facts -/

theorem triangleRot_length (oct : ℕ) : (triangleRot oct).length = 512 := by
  unfold triangleRot
  rw [List.length_append, List.length_drop, List.length_take, triangleList_length]
  rfl

theorem fixResult_length (a : List ℝ) : ((fixMutated a).reverse).length = a.length := by
  simp [fixMutated]

theorem fixResult_bounds {a : List ℝ} (hlt : pymin a < pymax a) {v : ℤ}
    (hv : v ∈ (fixMutated a).reverse) : -2047 ≤ v ∧ v ≤ 2047 := by
  rw [List.mem_reverse] at hv
  unfold fixMutated at hv
  obtain ⟨w, hw, rfl⟩ := List.mem_map.1 hv
  exact fixScale_bounds hlt (pymin_le hw) (le_pymax hw)

theorem ramp_length : ramp.length = 512 := by
  simp [ramp]

theorem ramp_getD {i : ℕ} (h : i < 512) : ramp.getD i 0 = (i : ℝ) :=
  getD_map_range (fun (i : ℕ) => (i : ℝ)) h 0

theorem ramp_pymin : pymin ramp = 0 := by
  have h1 : pymin ramp ≤ 0 := by
    have := pymin_le
      (getD_mem (show (0 : ℕ) < ramp.length by rw [ramp_length]; norm_num) (0 : ℝ))
    rw [ramp_getD (by norm_num)] at this
    simpa using this
  have h2 : (0 : ℝ) ≤ pymin ramp := by
    have hmem := pymin_mem
      (show ramp ≠ [] by rw [← List.length_pos_iff_ne_nil, ramp_length]; norm_num)
    unfold ramp at hmem
    obtain ⟨j, hj, he⟩ := mem_map_range hmem
    unfold ramp
    rw [he]
    exact Nat.cast_nonneg j
  linarith

theorem ramp_pymax : pymax ramp = 511 := by
  have h1 : (511 : ℝ) ≤ pymax ramp := by
    have := le_pymax
      (getD_mem (show (511 : ℕ) < ramp.length by rw [ramp_length]; norm_num) (0 : ℝ))
    rw [ramp_getD (by norm_num)] at this
    simpa using this
  have h2 : pymax ramp ≤ 511 := by
    have hmem := pymax_mem
      (show ramp ≠ [] by rw [← List.length_pos_iff_ne_nil, ramp_length]; norm_num)
    unfold ramp at hmem
    obtain ⟨j, hj, he⟩ := mem_map_range hmem
    unfold ramp
    rw [he]
    exact_mod_cast Nat.lt_succ_iff.1 hj
  linarith

/-! ### Claim theorems -/

/-- Claim C1, counterexample: the emitted phase step for A4 (id 69) is 307582,
not 307626 within ±1; moreover at id 76 the emitted value differs from
round-to-nearest, because `format_hex` truncates via `int()`. -/
theorem C1_counterexample :
    step_data 69 = 307582 ∧
    ¬((307626 : ℤ) - 1 ≤ step_data 69 ∧ step_data 69 ≤ 307626 + 1) ∧
    step_data 76 ≠ round (step 76 * 65536) := by
  refine ⟨step_data_69_val, ?_, ?_⟩
  · rw [step_data_69_val]
    norm_num
  · rw [step_data_76_val, round_step_76]
    norm_num

/-- Claim C1 (amended): for every note id in 0..127 the emitted phase step is
`int(step * 65536)`, i.e. the truncation toward zero (equivalently the floor,
steps being positive) of `step * 2^16`; in particular for A4 (id 69, 440 Hz)
the encoded value is 307582. -/
theorem C1_amended :
    (∀ id : ℕ, id < 128 →
      step_data id = pyInt (step id * 65536) ∧
      (step_data id : ℝ) ≤ step id * 65536 ∧
      step id * 65536 < (step_data id : ℝ) + 1) ∧
    step_data 69 = 307582 := by
  constructor
  · intro id h
    have hpos : (0 : ℝ) ≤ step id * 65536 :=
      le_of_lt (mul_pos (step_pos h) (by norm_num))
    refine ⟨rfl, ?_, ?_⟩
    · unfold step_data
      rw [pyInt_nonneg_eq_floor hpos]
      exact Int.floor_le _
    · unfold step_data
      rw [pyInt_nonneg_eq_floor hpos]
      exact Int.lt_floor_add_one _
  · exact step_data_69_val

theorem C1_amended_witness :
    (69 : ℕ) < 128 ∧ step_data 69 = pyInt (step 69 * 65536) :=
  ⟨by decide, (C1_amended.1 69 (by decide)).1⟩

/-- Claim C2, counterexample: at octave 0, index 0, the triangle value before
rotation is not `square[0] - square_avg` computed from the real-valued square
array — the code integrates the in-place quantized square instead, and the
real `square[0]` is not an integer. -/
theorem C2_counterexample :
    triangleF 0 0 ≠ squareF 0 0 - square_avg 0 := by
  intro he
  have h0 : triangleF 0 0 = ((squareQuant 0).getD 0 0 : ℝ) - square_avg 0 := by
    show runSum (triangleTerm 0) 0 = _
    rw [runSum_zero]
    rfl
  rw [h0] at he
  have hq : squareF 0 0 = ((squareQuant 0).getD 0 0 : ℝ) := by linarith
  exact squareF_zero_not_int (by norm_num) ((squareQuant 0).getD 0 0) hq

/-- Claim C2 (amended): for every octave, the pre-rotation triangle satisfies
`t[i] = t[i-1] + (q[i] - avg)` (with `t[-1] = 0`) where `q` is the caller's
square list as mutated in place by quantization, while `avg = (min + max)/2`
is still computed from the pre-quantization real-valued square; the array is
then rotated left by 128 samples before being quantized. -/
theorem C2_amended :
    ∀ oct : ℕ, oct < 10 →
      (∀ i : ℕ, i < 512 →
        (triangleList oct).getD i 0 =
          (if i = 0 then 0 else (triangleList oct).getD (i - 1) 0) +
            (((squareQuant oct).getD i 0 : ℝ) - square_avg oct)) ∧
      square_avg oct = (pymin (squareList oct) + pymax (squareList oct)) / 2 ∧
      triangleRot oct = (triangleList oct).drop 128 ++ (triangleList oct).take 128 ∧
      triangleTable oct = fix_wavetable (triangleRot oct) := by
  intro oct h
  refine ⟨?_, by unfold square_avg; ring, rfl, rfl⟩
  intro i hi
  rw [triangleList_getD hi]
  cases i with
  | zero =>
    rw [if_pos rfl, zero_add]
    rfl
  | succ n =>
    rw [if_neg (Nat.succ_ne_zero n), Nat.add_sub_cancel,
      triangleList_getD (by omega)]
    rfl

theorem C2_amended_witness :
    (0 : ℕ) < 10 ∧ square_avg 0 = (pymin (squareList 0) + pymax (squareList 0)) / 2 :=
  ⟨by decide, (C2_amended 0 (by decide)).2.1⟩

/-- Claim C3: for every octave, the BLIT array equals the Dirichlet-kernel
formula `sin(pi*x*M) / (M*sin(pi*x))` with `x = (i - 256)/512` at every
non-singular index; the denominator vanishes only at `i = 256`, where the
value 1.0 is substituted and `mid` is set to 256; `blit[mid] = 1.0`. -/
theorem C3_blit_singularity :
    ∀ oct : ℕ, oct < 10 →
      mid oct = 256 ∧ blit oct 256 = 1 ∧ blitDenom oct 256 = 0 ∧
      ∀ i : ℕ, i < 512 → i ≠ 256 →
        blitDenom oct i ≠ 0 ∧
        blit oct i =
          Real.sin (π * xval i * (M oct : ℝ)) / ((M oct : ℝ) * Real.sin (π * xval i)) ∧
        xval i = ((i : ℝ) - 256) / 512 := by
  intro oct _
  refine ⟨mid_eq oct, blit_mid_val oct, (blitDenom_eq_zero_iff (by norm_num)).2 rfl, ?_⟩
  intro i hi hne
  refine ⟨fun h0 => hne ((blitDenom_eq_zero_iff hi).1 h0), ?_, xval_eq i⟩
  rw [blit_eq hi hne]
  rfl

theorem C3_witness : (0 : ℕ) < 10 ∧ mid 0 = 256 :=
  ⟨by decide, (C3_blit_singularity 0 (by decide)).1⟩

/-- Claim C4: for every octave and index `i < 512`, the pre-quantization
square table satisfies `y[i] = y[i-1] + (blit[i] - blit[shift(i)])` with `y`
starting at 0 and `shift(i) = i + mid if i < mid else i - mid`. -/
theorem C4_square_recurrence :
    ∀ oct : ℕ, oct < 10 → ∀ i : ℕ, i < 512 →
      (squareList oct).getD i 0 =
        (if i = 0 then 0 else (squareList oct).getD (i - 1) 0) +
          (blit oct i - blit oct (if i < mid oct then i + mid oct else i - mid oct)) := by
  intro oct _ i hi
  rw [squareList_getD hi]
  have hsh : (if i < mid oct then i + mid oct else i - mid oct) = shiftIdx (mid oct) i := rfl
  rw [hsh]
  cases i with
  | zero =>
    rw [if_pos rfl, zero_add]
    rfl
  | succ n =>
    rw [if_neg (Nat.succ_ne_zero n), Nat.add_sub_cancel, squareList_getD (by omega)]
    rfl

theorem C4_witness :
    (0 : ℕ) < 10 ∧ (0 : ℕ) < 512 ∧
      (squareList 0).getD 0 0 =
        (if (0 : ℕ) = 0 then 0 else (squareList 0).getD (0 - 1) 0) +
          (blit 0 0 - blit 0 (if 0 < mid 0 then 0 + mid 0 else 0 - mid 0)) :=
  ⟨by decide, by decide, C4_square_recurrence 0 (by decide) 0 (by decide)⟩

/-- Claim C5: for every octave and index `i < 512`, the pre-quantization
sawtooth value at `i` is `-y[i]` where `y[i] = y[i-1] + (blit[shift(i)] - 1/P)`,
`y` starts at 0, and `P = 48000 / f` for the octave's reference frequency. -/
theorem C5_sawtooth_recurrence :
    ∀ oct : ℕ, oct < 10 →
      P oct = 48000 / note_frequencies.getD (refIdx oct) 0 ∧
      ∀ i : ℕ, i < 512 →
        (sawtoothList oct).getD i 0 = -(runSum (sawtoothTerm oct) i) ∧
        runSum (sawtoothTerm oct) i =
          (if i = 0 then 0 else runSum (sawtoothTerm oct) (i - 1)) +
            (blit oct (if i < mid oct then i + mid oct else i - mid oct) - 1 / P oct) := by
  intro oct _
  constructor
  · unfold P audio_sample_rate refFreq
    norm_num
  intro i hi
  refine ⟨sawtoothList_getD hi, ?_⟩
  have hsh : (if i < mid oct then i + mid oct else i - mid oct) = shiftIdx (mid oct) i := rfl
  rw [hsh]
  cases i with
  | zero =>
    rw [if_pos rfl, zero_add]
    rfl
  | succ n =>
    rw [if_neg (Nat.succ_ne_zero n), Nat.add_sub_cancel]
    rfl

theorem C5_witness :
    (0 : ℕ) < 10 ∧ P 0 = 48000 / note_frequencies.getD (refIdx 0) 0 :=
  ⟨by decide, (C5_sawtooth_recurrence 0 (by decide)).1⟩

/-- Claim C6: for every real-valued input array with max ≠ min, the normalizer
returns a same-length list whose entry at `i` is the truncation-quantization of
the input entry at `n-1-i` (index-reversed output); on the ramp 0..511 the
output attains exactly the endpoints 2047 (at index 0) and -2047 (at index
511), all values lying in [-2047, 2047]. -/
theorem C6_normalizer :
    (∀ a : List ℝ, pymax a ≠ pymin a →
      ∃ l : List ℤ, fix_wavetable a = some l ∧ l.length = a.length ∧
        ∀ i : ℕ, i < a.length →
          l.getD i 0 =
            pyInt ((a.getD (a.length - 1 - i) 0 - pymin a) * (2 * 2047) /
              (pymax a - pymin a)) - 2047) ∧
    ∃ r : List ℤ, fix_wavetable ramp = some r ∧
      r.getD 0 0 = 2047 ∧ r.getD 511 0 = -2047 ∧
      ∀ v ∈ r, -2047 ≤ v ∧ v ≤ 2047 := by
  constructor
  · intro a hne
    have hnil : a ≠ [] := by
      intro h
      subst h
      exact hne rfl
    have hlt : pymin a < pymax a :=
      lt_of_le_of_ne (pymin_le_pymax hnil) (fun h => hne h.symm)
    have hpos : (0 : ℝ) < pymax a - pymin a := by linarith
    have hlen : (fixMutated a).length = a.length := by simp [fixMutated]
    refine ⟨(fixMutated a).reverse, fix_some_of_lt hlt, by simp [fixMutated], ?_⟩
    intro i hi
    have hi2 : i < (fixMutated a).length := by rw [hlen]; exact hi
    rw [getD_reverse hi2 0, hlen]
    have hj : a.length - 1 - i < a.length := by omega
    unfold fixMutated
    rw [getD_map (fixScale a) hj 0 0]
    unfold fixScale waveform_amplitude
    rw [abs_of_pos hpos]
    have harg : (a.getD (a.length - 1 - i) 0 - pymin a) *
        (((2 * 0x7ff : ℤ) : ℝ) / (pymax a - pymin a)) =
        (a.getD (a.length - 1 - i) 0 - pymin a) * (2 * 2047) / (pymax a - pymin a) := by
      push_cast
      ring
    rw [harg]
  · have hlt : pymin ramp < pymax ramp := by
      rw [ramp_pymin, ramp_pymax]
      norm_num
    have hlen : (fixMutated ramp).length = 512 := by
      simp [fixMutated, ramp_length]
    refine ⟨(fixMutated ramp).reverse, fix_some_of_lt hlt, ?_, ?_, ?_⟩
    · rw [getD_reverse (by rw [hlen]; norm_num) 0, hlen]
      unfold fixMutated
      rw [show (512 : ℕ) - 1 - 0 = 511 from rfl]
      rw [getD_map (fixScale ramp) (by rw [ramp_length]; norm_num) 0 0]
      rw [ramp_getD (by norm_num)]
      rw [show ((511 : ℕ) : ℝ) = pymax ramp by rw [ramp_pymax]; norm_num]
      exact fixScale_max hlt
    · rw [getD_reverse (by rw [hlen]; norm_num) 0, hlen]
      unfold fixMutated
      rw [show (512 : ℕ) - 1 - 511 = 0 from rfl]
      rw [getD_map (fixScale ramp) (by rw [ramp_length]; norm_num) 0 0]
      rw [ramp_getD (by norm_num)]
      rw [show ((0 : ℕ) : ℝ) = pymin ramp by rw [ramp_pymin]; norm_num]
      exact fixScale_min hlt
    · intro v hv
      exact fixResult_bounds hlt hv

theorem C6_witness :
    pymax [(0 : ℝ), 1] ≠ pymin [(0 : ℝ), 1] ∧
    ∃ l : List ℤ, fix_wavetable [(0 : ℝ), 1] = some l ∧
      l.length = [(0 : ℝ), 1].length ∧
      ∀ i : ℕ, i < [(0 : ℝ), 1].length →
        l.getD i 0 =
          pyInt (([(0 : ℝ), 1].getD ([(0 : ℝ), 1].length - 1 - i) 0 -
            pymin [(0 : ℝ), 1]) * (2 * 2047) /
              (pymax [(0 : ℝ), 1] - pymin [(0 : ℝ), 1])) - 2047 := by
  have hne : pymax [(0 : ℝ), 1] ≠ pymin [(0 : ℝ), 1] := by
    show ([(1 : ℝ)].foldl max 0) ≠ ([(1 : ℝ)].foldl min 0)
    simp
  exact ⟨hne, C6_normalizer.1 [0, 1] hne⟩

/-- Claim C7: for every id in 0..127 the note frequency equals
`440 * 2^((id - 69)/12)`; the frequency of id 69 is exactly 440; and the
frequencies are strictly increasing in id. -/
theorem C7_note_frequencies :
    (∀ id : ℕ, id < 128 →
      note_frequencies.getD id 0 = 440 * (2 : ℝ) ^ (((id : ℝ) - 69) / 12)) ∧
    note_frequencies.getD 69 0 = 440 ∧
    (∀ id : ℕ, id < 127 →
      note_frequencies.getD id 0 < note_frequencies.getD (id + 1) 0) := by
  refine ⟨?_, ?_, ?_⟩
  · intro id h
    rw [note_frequencies_getD h]
    unfold note_frequency a4_frequency a4_midi_number
    norm_num
  · rw [note_frequencies_getD (by norm_num), note_frequency_69]
  · intro id h
    rw [note_frequencies_getD (by omega), note_frequencies_getD (by omega)]
    exact note_frequency_lt (by omega)

theorem C7_witness :
    (69 : ℕ) < 128 ∧
    note_frequencies.getD 69 0 = 440 * (2 : ℝ) ^ ((((69 : ℕ) : ℝ) - 69) / 12) :=
  ⟨by decide, C7_note_frequencies.1 69 (by decide)⟩

/-- Claim C8: the generated data satisfies the shape-and-range contract:
`wavetable_octaves = ceil(128/12) - 1 = 10`; each octave family has exactly
`wavetable_octaves` tables; the sine table and every octave table hold exactly
512 samples; and every generated sample lies in [-2047, 2047]. -/
theorem C8_shapes :
    wavetable_octaves = 10 ∧
    note_frequencies.length = 128 ∧
    squareFamily.length = wavetable_octaves ∧
    triangleFamily.length = wavetable_octaves ∧
    sawtoothFamily.length = wavetable_octaves ∧
    sine.length = 512 ∧ (∀ v ∈ sine, -2047 ≤ v ∧ v ≤ 2047) ∧
    ∀ oct : ℕ, oct < wavetable_octaves →
      (∃ l : List ℤ, squareTable oct = some l ∧ l.length = 512 ∧
        ∀ v ∈ l, -2047 ≤ v ∧ v ≤ 2047) ∧
      (∃ l : List ℤ, triangleTable oct = some l ∧ l.length = 512 ∧
        ∀ v ∈ l, -2047 ≤ v ∧ v ≤ 2047) ∧
      (∃ l : List ℤ, sawtoothTable oct = some l ∧ l.length = 512 ∧
        ∀ v ∈ l, -2047 ≤ v ∧ v ≤ 2047) := by
  refine ⟨wavetable_octaves_eq, note_frequencies_length, by simp [squareFamily],
    by simp [triangleFamily], by simp [sawtoothFamily], sine_length,
    fun v hv => sine_mem_bound hv, ?_⟩
  intro oct h
  rw [wavetable_octaves_eq] at h
  refine ⟨?_, ?_, ?_⟩
  · refine ⟨(fixMutated (squareList oct)).reverse,
      fix_some_of_lt (square_min_lt_max h), ?_, ?_⟩
    · rw [fixResult_length, squareList_length]
    · intro v hv
      exact fixResult_bounds (square_min_lt_max h) hv
  · refine ⟨(fixMutated (triangleRot oct)).reverse,
      fix_some_of_lt (triangle_min_lt_max h), ?_, ?_⟩
    · rw [fixResult_length, triangleRot_length]
    · intro v hv
      exact fixResult_bounds (triangle_min_lt_max h) hv
  · refine ⟨(fixMutated (sawtoothList oct)).reverse,
      fix_some_of_lt (sawtooth_min_lt_max h), ?_, ?_⟩
    · rw [fixResult_length, sawtoothList_length]
    · intro v hv
      exact fixResult_bounds (sawtooth_min_lt_max h) hv

theorem C8_witness :
    (0 : ℕ) < wavetable_octaves ∧
    ∃ l : List ℤ, squareTable 0 = some l ∧ l.length = 512 ∧
      ∀ v ∈ l, -2047 ≤ v ∧ v ≤ 2047 := by
  have h : (0 : ℕ) < wavetable_octaves := by
    rw [wavetable_octaves_eq]
    norm_num
  exact ⟨h, (C8_shapes.2.2.2.2.2.2.2 0 h).1⟩

/-- Claim C9: `fix_wavetable` mutates its argument in place — the caller's list
afterwards holds the quantized values in original index order while the
returned list is their reversal — so the triangle derivation, running after
`fix_wavetable(square)`, reads the quantized square values while `square_avg`
was computed from the pre-quantization reals; at octave 0 the quantized value
at index 0 observably differs from the real one. -/
theorem C9_frame_effect :
    (∀ (a : List ℝ) (l : List ℤ), fix_wavetable a = some l →
      l = (fixMutated a).reverse) ∧
    (∀ (a : List ℝ) (i : ℕ), i < a.length →
      (fixMutated a).getD i 0 = fixScale a (a.getD i 0)) ∧
    (∀ oct i : ℕ, triangleF oct i =
      runSum (fun j => ((squareQuant oct).getD j 0 : ℝ) - square_avg oct) i) ∧
    (∀ oct : ℕ, square_avg oct =
      pymin (squareList oct) + ((pymax (squareList oct) - pymin (squareList oct)) / 2)) ∧
    ((squareQuant 0).getD 0 0 : ℝ) ≠ squareF 0 0 := by
  refine ⟨?_, ?_, fun oct i => rfl, fun oct => rfl, ?_⟩
  · intro a l h
    unfold fix_wavetable at h
    by_cases hc : |pymax a - pymin a| = 0
    · rw [if_pos hc] at h
      cases h
    · rw [if_neg hc] at h
      exact (Option.some_inj.1 h).symm
  · intro a i h
    unfold fixMutated
    exact getD_map (fixScale a) h 0 0
  · intro he
    exact squareF_zero_not_int (by norm_num) ((squareQuant 0).getD 0 0) he.symm

theorem C9_witness :
    0 < [(0 : ℝ)].length ∧
    (fixMutated [(0 : ℝ)]).getD 0 0 = fixScale [(0 : ℝ)] ([(0 : ℝ)].getD 0 0) :=
  ⟨by simp, C9_frame_effect.2.1 [(0 : ℝ)] 0 (by simp)⟩

/-- Claim C10: on any input whose max equals its min the normalizer hits the
division-by-zero error (modelled as `none`: no recovery, no partial result);
and no array actually produced by the waveform derivations under the current
constants triggers it — every per-octave square, triangle and sawtooth list
normalizes successfully. -/
theorem C10_degenerate :
    (∀ a : List ℝ, pymax a = pymin a → fix_wavetable a = none) ∧
    (∀ oct : ℕ, oct < wavetable_octaves →
      fix_wavetable (squareList oct) ≠ none ∧
      fix_wavetable (triangleRot oct) ≠ none ∧
      fix_wavetable (sawtoothList oct) ≠ none) := by
  constructor
  · intro a h
    unfold fix_wavetable
    rw [if_pos (by rw [h, sub_self, abs_zero])]
  · intro oct h
    rw [wavetable_octaves_eq] at h
    refine ⟨?_, ?_, ?_⟩
    · rw [fix_some_of_lt (square_min_lt_max h)]
      exact Option.some_ne_none _
    · rw [fix_some_of_lt (triangle_min_lt_max h)]
      exact Option.some_ne_none _
    · rw [fix_some_of_lt (sawtooth_min_lt_max h)]
      exact Option.some_ne_none _

theorem C10_witness :
    pymax [(0 : ℝ), 0] = pymin [(0 : ℝ), 0] ∧ fix_wavetable [(0 : ℝ), 0] = none := by
  have h : pymax [(0 : ℝ), 0] = pymin [(0 : ℝ), 0] := by
    show ([(0 : ℝ)].foldl max 0) = ([(0 : ℝ)].foldl min 0)
    simp
  exact ⟨h, C10_degenerate.1 [0, 0] h⟩

end PicoSynth
